import Mathlib

/-
Verification of the chess-rs board engine (src/board.rs).

The embedding below translates the Rust source directly:
* `Location.move_relative` mirrors the i8 shift arithmetic using `Int`
  (locations produced by the engine always have coordinates in [0,7], so
  the i8 casts never wrap on that domain);
* the board's `HashMap<Location, Box<dyn Piece>>` is modelled as an
  association list with HashMap lookup/insert/remove observable semantics
  (insert replaces the entry at an existing key; lookup returns the entry
  stored at the key);
* the six piece implementations become one `Piece` structure carrying
  `color`, `kind` and `location`, with move generation dispatching on the
  kind, each generator transcribing the corresponding Rust loop;
* panics (`assert!`, `expect`, `panic!`) become `Option`/`Except` failures;
* the anchored regex from `parse_pgn_move` is modelled by an explicit
  parser that enumerates the optional-group choices in the leftmost-first
  (greedy, backtracking) order used by the `regex` crate.
-/

set_option maxHeartbeats 4000000

namespace ChessRs

inductive Color where
  | White
  | Black
deriving DecidableEq, Repr

def Color.flip : Color → Color
  | .Black => .White
  | .White => .Black

inductive Kind where
  | King
  | Queen
  | Rook
  | Bishop
  | Knight
  | Pawn
deriving DecidableEq, Repr

/-- `kind_to_pgn` from the source: single letter, empty for pawns. -/
def kind_to_pgn : Kind → List Char
  | .King => ['K']
  | .Queen => ['Q']
  | .Rook => ['R']
  | .Bishop => ['B']
  | .Knight => ['N']
  | .Pawn => []

structure Location where
  rank : Nat
  file : Nat
deriving DecidableEq, Repr

/-- `FILE_CHARS` from the source. -/
def FILE_CHARS : List Char := ['a', 'b', 'c', 'd', 'e', 'f', 'g', 'h']

/-- `Location::move_relative`: shift in the mover's frame, `none` when the
result leaves the 8x8 board.  The Rust source computes with `i8`; `Int`
arithmetic agrees with it on all in-range locations. -/
def Location.move_relative (l : Location) (color : Color) (rank_shift file_shift : Int) :
    Option Location :=
  let new_rank : Int :=
    match color with
    | .White => (l.rank : Int) + rank_shift
    | .Black => (l.rank : Int) - rank_shift
  let new_file : Int :=
    match color with
    | .White => (l.file : Int) + file_shift
    | .Black => (l.file : Int) - file_shift
  if new_rank < 0 ∨ new_rank > 7 ∨ new_file < 0 ∨ new_file > 7 then
    none
  else
    some { rank := new_rank.toNat, file := new_file.toNat }

def Location.forward (l : Location) (color : Color) : Option Location :=
  l.move_relative color 1 0

def Location.left (l : Location) (color : Color) : Option Location :=
  l.move_relative color 0 (-1)

def Location.right (l : Location) (color : Color) : Option Location :=
  l.move_relative color 0 1

/-- `Location::pgn`: file letter then the decimal rendering of `rank + 1`;
the Rust code panics (here: `none`) when the file is out of range. -/
def Location.pgn (l : Location) : Option (List Char) :=
  match FILE_CHARS[l.file]? with
  | none => none
  | some fc => some (fc :: Nat.toDigits 10 (l.rank + 1))

structure Piece where
  color : Color
  kind : Kind
  location : Location
deriving DecidableEq, Repr

inductive Move where
  | Simple (src dst : Location)
deriving DecidableEq, Repr

def Move.src : Move → Location
  | .Simple s _ => s

def Move.dst : Move → Location
  | .Simple _ d => d

/-- Association-list model of `HashMap::get`. -/
def lookupLoc : List (Location × Piece) → Location → Option Piece
  | [], _ => none
  | e :: rest, l => if e.1 = l then some e.2 else lookupLoc rest l

/-- Association-list model of `HashMap::remove` (drops the entry at the key). -/
def removeLoc (m : List (Location × Piece)) (l : Location) : List (Location × Piece) :=
  m.filter (fun e => decide (e.1 ≠ l))

structure Board where
  pieces : List (Location × Piece)
  to_move : Color
deriving DecidableEq, Repr

/-- `Board::new`. -/
def Board.new : Board := { pieces := [], to_move := .White }

def Board.get_piece (b : Board) (l : Location) : Option Piece :=
  lookupLoc b.pieces l

/-- `Board::add_piece`: insert keyed by the piece's own location. -/
def Board.add_piece (b : Board) (p : Piece) : Board :=
  { b with pieces := (p.location, p) :: removeLoc b.pieces p.location }

def Board.remove_piece (b : Board) (l : Location) : Board :=
  { b with pieces := removeLoc b.pieces l }

/-- `Pawn::possible_moves`, transcribed from the nested `if let` chains. -/
def pawnMoves (c : Color) (l : Location) (b : Board) : List Move :=
  match l.forward c with
  | none => []
  | some forward1 =>
    let part1 : List Move :=
      match b.get_piece forward1 with
      | some _ => []
      | none =>
        match forward1.forward c with
        | none => [Move.Simple l forward1]
        | some forward2 =>
          match b.get_piece forward2 with
          | none => [Move.Simple l forward1, Move.Simple l forward2]
          | some _ => [Move.Simple l forward1]
    let part2 : List Move :=
      match forward1.left c with
      | none => []
      | some capture_left1 =>
        match b.get_piece capture_left1 with
        | none => []
        | some p => if p.color ≠ c then [Move.Simple l capture_left1] else []
    let part3 : List Move :=
      match forward1.right c with
      | none => []
      | some capture_right1 =>
        match b.get_piece capture_right1 with
        | none => []
        | some p => if p.color ≠ c then [Move.Simple l capture_right1] else []
    part1 ++ part2 ++ part3

/-- The eight knight offsets, in source order. -/
def knightOffsets : List (Int × Int) :=
  [(1, 2), (2, 1), (2, -1), (1, -2), (-1, -2), (-2, -1), (-2, 1), (-1, 2)]

/-- `Knight::possible_moves`. -/
def knightMoves (c : Color) (l : Location) (b : Board) : List Move :=
  knightOffsets.flatMap fun o =>
    match l.move_relative c o.1 o.2 with
    | none => []
    | some t =>
      match b.get_piece t with
      | some p => if p.color ≠ c then [Move.Simple l t] else []
      | none => [Move.Simple l t]

/-- The shared ray loop of `Bishop/Rook/Queen::possible_moves`: walk the
given distances; an empty square is a candidate and the walk continues,
the first occupied square stops the walk and is a candidate only when it
holds the opposing color.  (The Rust loop does not stop on an off-board
distance; neither does this one.) -/
def rayLoop (b : Board) (c : Color) (l : Location) (d : Int × Int) :
    List Nat → List Move
  | [] => []
  | k :: ks =>
    match l.move_relative c ((k : Int) * d.1) ((k : Int) * d.2) with
    | none => rayLoop b c l d ks
    | some t =>
      match b.get_piece t with
      | none => Move.Simple l t :: rayLoop b c l d ks
      | some p => if p.color ≠ c then [Move.Simple l t] else []

def bishopDirections : List (Int × Int) := [(1, 1), (1, -1), (-1, 1), (-1, -1)]

def rookDirections : List (Int × Int) := [(0, 1), (1, 0), (0, -1), (-1, 0)]

def queenDirections : List (Int × Int) :=
  [(0, 1), (1, 0), (0, -1), (-1, 0), (1, 1), (1, -1), (-1, 1), (-1, -1)]

/-- `for distance in 1..8`. -/
def rayDistances : List Nat := List.range' 1 7

/-- `Bishop::possible_moves`. -/
def bishopMoves (c : Color) (l : Location) (b : Board) : List Move :=
  bishopDirections.flatMap fun d => rayLoop b c l d rayDistances

/-- `Rook::possible_moves`. -/
def rookMoves (c : Color) (l : Location) (b : Board) : List Move :=
  rookDirections.flatMap fun d => rayLoop b c l d rayDistances

/-- `Queen::possible_moves`. -/
def queenMoves (c : Color) (l : Location) (b : Board) : List Move :=
  queenDirections.flatMap fun d => rayLoop b c l d rayDistances

/-- `King::possible_moves` returns no moves in the source. -/
def kingMoves (_c : Color) (_l : Location) (_b : Board) : List Move := []

/-- Dispatch of the `Piece` trait's `possible_moves` over the six kinds. -/
def Piece.possible_moves (p : Piece) (b : Board) : List Move :=
  match p.kind with
  | .Pawn => pawnMoves p.color p.location b
  | .Knight => knightMoves p.color p.location b
  | .Bishop => bishopMoves p.color p.location b
  | .Rook => rookMoves p.color p.location b
  | .Queen => queenMoves p.color p.location b
  | .King => kingMoves p.color p.location b

/-- `Board::possible_moves`: moves of every piece whose color is `to_move`. -/
def Board.possible_moves (b : Board) : List Move :=
  b.pieces.flatMap fun e =>
    if e.2.color = b.to_move then e.2.possible_moves b else []

/-- `Board::apply_move`: remove the piece at `src` (`none` models the
`expect` panic when the square is empty), update its stored location,
insert it at `dst`, then flip `to_move`. -/
def Board.apply_move (b : Board) (m : Move) : Option Board :=
  match m with
  | .Simple src dst =>
    match lookupLoc b.pieces src with
    | none => none
    | some piece =>
      let piece' : Piece := { piece with location := dst }
      some { pieces := (dst, piece') :: removeLoc (removeLoc b.pieces src) dst
             to_move := b.to_move.flip }

/-- `piece_from_repr`: outer `none` models the panic on an invalid glyph,
`some none` is an empty square. -/
def pieceFromRepr (c : Char) (l : Location) : Option (Option Piece) :=
  match c with
  | '♔' => some (some ⟨.White, .King, l⟩)
  | '♕' => some (some ⟨.White, .Queen, l⟩)
  | '♖' => some (some ⟨.White, .Rook, l⟩)
  | '♗' => some (some ⟨.White, .Bishop, l⟩)
  | '♘' => some (some ⟨.White, .Knight, l⟩)
  | '♙' => some (some ⟨.White, .Pawn, l⟩)
  | '♚' => some (some ⟨.Black, .King, l⟩)
  | '♛' => some (some ⟨.Black, .Queen, l⟩)
  | '♜' => some (some ⟨.Black, .Rook, l⟩)
  | '♝' => some (some ⟨.Black, .Bishop, l⟩)
  | '♞' => some (some ⟨.Black, .Knight, l⟩)
  | '♟' => some (some ⟨.Black, .Pawn, l⟩)
  | ' ' => some none
  | _ => none

/-- The `repr` method of each piece implementation. -/
def reprChar (p : Piece) : Char :=
  match p.color, p.kind with
  | .White, .King => '♔'
  | .White, .Queen => '♕'
  | .White, .Rook => '♖'
  | .White, .Bishop => '♗'
  | .White, .Knight => '♘'
  | .White, .Pawn => '♙'
  | .Black, .King => '♚'
  | .Black, .Queen => '♛'
  | .Black, .Rook => '♜'
  | .Black, .Bishop => '♝'
  | .Black, .Knight => '♞'
  | .Black, .Pawn => '♟'

/-- The `(r, f)` pairs visited by the `from_repr` loops:
`r` from 7 down to 0, `f` from 0 to 7. -/
def rfPairs : List (Nat × Nat) :=
  (List.range 8).reverse.flatMap fun r => (List.range 8).map fun f => (r, f)

/-- Decode the glyph for square `(r, f)` out of the 64-glyph string. -/
def decodeAt (s : List Char) (r f : Nat) : Option (Option Piece) :=
  match s[8 * (7 - r) + f]? with
  | none => none
  | some ch => pieceFromRepr ch { rank := r, file := f }

/-- The body of the `from_repr` double loop. -/
def placeAll (s : List Char) : List (Nat × Nat) → Board → Option Board
  | [], b => some b
  | rf :: rest, b =>
    match decodeAt s rf.1 rf.2 with
    | none => none
    | some none => placeAll s rest b
    | some (some p) => placeAll s rest (b.add_piece p)

/-- `Board::from_repr`: requires exactly 64 glyphs, then fills the board
rank 8 down to rank 1, file a to h. -/
def Board.from_repr (s : List Char) : Option Board :=
  if s.length = 64 then placeAll s rfPairs Board.new else none

/-- One rendered square of `Board::to_str`. -/
def squareChar (b : Board) (l : Location) : Char :=
  match b.get_piece l with
  | some p => reprChar p
  | none => ' '

/-- `Board::to_str`: ranks 8 down to 1, glyphs space-separated within a
rank, each rank newline-terminated. -/
def Board.to_str (b : Board) : List Char :=
  (List.range 8).reverse.flatMap fun r =>
    ((List.range 8).flatMap fun f =>
      squareChar b { rank := r, file := f } :: (if f < 7 then [' '] else [])) ++ ['\n']

/-- The 64-glyph layout literal of `Board::default`. -/
def defaultRepr : List Char :=
  "♜♞♝♛♚♝♞♜".toList ++ "♟♟♟♟♟♟♟♟".toList ++
    "        ".toList ++ "        ".toList ++ "        ".toList ++ "        ".toList ++
    "♙♙♙♙♙♙♙♙".toList ++ "♖♘♗♕♔♗♘♖".toList

/-- `Board::default` (its internal `from_repr` call cannot fail; the
`getD` fallback is unreachable, which the theorem on the initial position
makes explicit by proving `from_repr defaultRepr = some defaultBoard`). -/
def Board.defaultBoard : Board :=
  (Board.from_repr defaultRepr).getD Board.new

/-- `Board::to_pgn`: kind letter followed by the destination square;
`none` models the panic when `src` is empty. -/
def Board.to_pgn (b : Board) (m : Move) : Option (List Char) :=
  match m with
  | .Simple src dst =>
    match b.get_piece src with
    | none => none
    | some move_piece =>
      match dst.pgn with
      | none => none
      | some ds => some (kind_to_pgn move_piece.kind ++ ds)

/-- Index of a file letter in `FILE_CHARS` (`FILE_CHARS.find`). -/
def fileIdx (c : Char) : Option Nat :=
  if 'a' ≤ c ∧ c ≤ 'h' then some (c.toNat - 97) else none

/-- A rank digit parsed and decremented (`parse::<u8>() - 1`). -/
def rankIdx (c : Char) : Option Nat :=
  if '1' ≤ c ∧ c ≤ '8' then some (c.toNat - 49) else none

/-- `pgn_to_kind` restricted to the single letters the regex admits. -/
def kindOfChar (c : Char) : Option Kind :=
  match c with
  | 'N' => some .Knight
  | 'B' => some .Bishop
  | 'R' => some .Rook
  | 'Q' => some .Queen
  | 'K' => some .King
  | _ => none

/-- Match the anchored pattern `([NBRQK]?)([a-h]?)([1-8]?)x?([a-h][1-8])`
with a fixed choice of which optional groups consume a character.
Returns the decoded kind, optional source file, optional source rank and
destination square. -/
def parseWith (s : List Char) (t1 t2 t3 tx : Bool) :
    Option (Kind × Option Nat × Option Nat × Location) := do
  let (k, s1) ←
    if t1 then
      match s with
      | c :: rest => (kindOfChar c).map fun k => (k, rest)
      | [] => none
    else
      some (Kind.Pawn, s)
  let (sf, s2) ←
    if t2 then
      match s1 with
      | c :: rest => (fileIdx c).map fun i => (some i, rest)
      | [] => none
    else
      some ((none : Option Nat), s1)
  let (sr, s3) ←
    if t3 then
      match s2 with
      | c :: rest => (rankIdx c).map fun i => (some i, rest)
      | [] => none
    else
      some ((none : Option Nat), s2)
  let s4 ←
    if tx then
      match s3 with
      | 'x' :: rest => some rest
      | _ => none
    else
      some s3
  match s4 with
  | [fc, rc] => do
    let f ← fileIdx fc
    let r ← rankIdx rc
    some (k, sf, sr, ({ rank := r, file := f } : Location))
  | _ => none

/-- The 16 group-choice combinations in the leftmost-first backtracking
order of the `regex` crate: taking a group is preferred over skipping it,
and earlier groups dominate later ones. -/
def groupChoices : List (Bool × Bool × Bool × Bool) :=
  [(true, true, true, true), (true, true, true, false),
   (true, true, false, true), (true, true, false, false),
   (true, false, true, true), (true, false, true, false),
   (true, false, false, true), (true, false, false, false),
   (false, true, true, true), (false, true, true, false),
   (false, true, false, true), (false, true, false, false),
   (false, false, true, true), (false, false, true, false),
   (false, false, false, true), (false, false, false, false)]

/-- Capture extraction for `^([NBRQK]?)([a-h]?)([1-8]?)x?([a-h][1-8])$`:
the first group-choice combination (in backtracking order) that matches
the whole string. -/
def pgnParse (s : List Char) : Option (Kind × Option Nat × Option Nat × Location) :=
  (groupChoices.filterMap fun t => parseWith s t.1 t.2.1 t.2.2.1 t.2.2.2).head?

inductive PgnError where
  | unparseable
  | noPiece
  | ambiguous
deriving DecidableEq, Repr

instance {ε α : Type} [DecidableEq ε] [DecidableEq α] : DecidableEq (Except ε α) := fun a b =>
  match a, b with
  | .ok x, .ok y =>
    match decEq x y with
    | isTrue h => isTrue (by rw [h])
    | isFalse h => isFalse (fun hh => h (by injection hh))
  | .ok _, .error _ => isFalse (fun hh => Except.noConfusion hh)
  | .error _, .ok _ => isFalse (fun hh => Except.noConfusion hh)
  | .error x, .error y =>
    match decEq x y with
    | isTrue h => isTrue (by rw [h])
    | isFalse h => isFalse (fun hh => h (by injection hh))

/-- The candidate filter loop of `parse_pgn_move`, with its `continue`
chain: wrong color, wrong kind, mismatched source file or rank, or no
generated move to the destination all skip the piece. -/
def collectCandidates (b : Board) (k : Kind) (sf sr : Option Nat) (dest : Location) :
    List (Location × Piece) → List Piece
  | [] => []
  | e :: rest =>
    let p := e.2
    if p.color ≠ b.to_move then collectCandidates b k sf sr dest rest
    else if p.kind ≠ k then collectCandidates b k sf sr dest rest
    else if (match sf with
             | some f => decide (p.location.file ≠ f)
             | none => false) then collectCandidates b k sf sr dest rest
    else if (match sr with
             | some r => decide (p.location.rank ≠ r)
             | none => false) then collectCandidates b k sf sr dest rest
    else if ¬ ((p.possible_moves b).any fun m =>
                match m with
                | .Simple _ t => decide (t = dest)) then
      collectCandidates b k sf sr dest rest
    else
      p :: collectCandidates b k sf sr dest rest

/-- `Board::parse_pgn_move`: decode the notation, filter the candidate
pieces, then demand exactly one survivor.  The two `assert!` panics and
the final `panic!` are modelled as the three error values. -/
def Board.parse_pgn_move (b : Board) (s : List Char) : Except PgnError Move :=
  match pgnParse s with
  | none => .error .unparseable
  | some (k, sf, sr, dest) =>
    match collectCandidates b k sf sr dest b.pieces with
    | [] => .error .noPiece
    | [p] => .ok (.Simple p.location dest)
    | _ :: _ :: _ => .error .ambiguous

/-- Spec-side description of the shifted rank: the shift is added for
White and subtracted for Black (Black's forward is White's backward). -/
def shiftedRank (c : Color) (r : Nat) (s : Int) : Int :=
  match c with
  | .White => (r : Int) + s
  | .Black => (r : Int) - s

/-- Spec-side description of the shifted file. -/
def shiftedFile (c : Color) (f : Nat) (s : Int) : Int :=
  match c with
  | .White => (f : Int) + s
  | .Black => (f : Int) - s

lemma move_relative_some_iff (l : Location) (c : Color) (rs fs : Int) (t : Location) :
    l.move_relative c rs fs = some t ↔
      0 ≤ shiftedRank c l.rank rs ∧ shiftedRank c l.rank rs ≤ 7 ∧
      0 ≤ shiftedFile c l.file fs ∧ shiftedFile c l.file fs ≤ 7 ∧
      (t.rank : Int) = shiftedRank c l.rank rs ∧
      (t.file : Int) = shiftedFile c l.file fs := by
  cases c <;>
    · simp only [Location.move_relative, shiftedRank, shiftedFile]
      split
      · rename_i hcond
        constructor
        · intro h; exact absurd h (by simp)
        · rintro ⟨h1, h2, h3, h4, -, -⟩; omega
      · rename_i hcond
        rw [not_or, not_or, not_or] at hcond
        simp only [Option.some.injEq]
        constructor
        · rintro rfl
          refine ⟨by omega, by omega, by omega, by omega, by simp; omega, by simp; omega⟩
        · rintro ⟨h1, h2, h3, h4, h5, h6⟩
          cases t
          simp_all
          omega

lemma move_relative_none_iff (l : Location) (c : Color) (rs fs : Int) :
    l.move_relative c rs fs = none ↔
      shiftedRank c l.rank rs < 0 ∨ 7 < shiftedRank c l.rank rs ∨
      shiftedFile c l.file fs < 0 ∨ 7 < shiftedFile c l.file fs := by
  cases c <;>
    · simp only [Location.move_relative, shiftedRank, shiftedFile]
      split
      · rename_i hcond
        simpa using hcond
      · rename_i hcond
        simp only [reduceCtorEq, false_iff]
        omega

@[simp] lemma lookupLoc_nil (l : Location) : lookupLoc [] l = none := rfl

@[simp] lemma lookupLoc_cons (e : Location × Piece) (rest : List (Location × Piece))
    (l : Location) :
    lookupLoc (e :: rest) l = if e.1 = l then some e.2 else lookupLoc rest l := rfl

lemma lookupLoc_removeLoc (m : List (Location × Piece)) (k l : Location) :
    lookupLoc (removeLoc m k) l = if l = k then none else lookupLoc m l := by
  induction m with
  | nil => simp [removeLoc]
  | cons e rest ih =>
    simp only [removeLoc] at ih ⊢
    rw [List.filter_cons]
    rcases eq_or_ne e.1 k with hek | hek
    · rw [if_neg (by simp [hek]), ih]
      rcases eq_or_ne l k with hlk | hlk
      · rw [if_pos hlk, if_pos hlk]
      · rw [if_neg hlk, if_neg hlk, lookupLoc_cons,
          if_neg (fun h : e.1 = l => hlk (h ▸ hek))]
    · rw [if_pos (by simp [hek]), lookupLoc_cons, ih]
      rcases eq_or_ne e.1 l with hel | hel
      · rw [if_pos hel, if_neg (fun hlk : l = k => hek (hel.trans hlk)),
          lookupLoc_cons, if_pos hel]
      · rw [if_neg hel, lookupLoc_cons, if_neg hel]

/-- C8: `move_relative` maps in-range locations and arbitrary i8 shifts to
`some` of the shifted location exactly when the color-adjusted shifted
coordinates stay inside the 8x8 board (both components of the result then
again in `[0,7]` and equal to the shifted coordinates), and to `none`
otherwise; it never wraps. -/
theorem move_relative_spec (l : Location) (c : Color) (rs fs : Int)
    (hr : l.rank ≤ 7) (hf : l.file ≤ 7)
    (hrs : -128 ≤ rs ∧ rs ≤ 127) (hfs : -128 ≤ fs ∧ fs ≤ 127) :
    ((0 ≤ shiftedRank c l.rank rs ∧ shiftedRank c l.rank rs ≤ 7 ∧
      0 ≤ shiftedFile c l.file fs ∧ shiftedFile c l.file fs ≤ 7) →
        ∃ t, l.move_relative c rs fs = some t ∧ t.rank ≤ 7 ∧ t.file ≤ 7 ∧
          (t.rank : Int) = shiftedRank c l.rank rs ∧
          (t.file : Int) = shiftedFile c l.file fs) ∧
    (¬ (0 ≤ shiftedRank c l.rank rs ∧ shiftedRank c l.rank rs ≤ 7 ∧
        0 ≤ shiftedFile c l.file fs ∧ shiftedFile c l.file fs ≤ 7) →
      l.move_relative c rs fs = none) := by
  constructor
  · rintro ⟨h1, h2, h3, h4⟩
    refine ⟨⟨(shiftedRank c l.rank rs).toNat, (shiftedFile c l.file fs).toNat⟩, ?_, ?_, ?_, ?_, ?_⟩
    · rw [move_relative_some_iff]
      refine ⟨h1, h2, h3, h4, by simp; omega, by simp; omega⟩
    · simp; omega
    · simp; omega
    · simp; omega
    · simp; omega
  · intro h
    rw [move_relative_none_iff]
    omega

/-- Witness for C8 at a concrete corner case: a white knight-like shift
from g1 stays on the board, so the hypotheses are satisfiable. -/
theorem move_relative_spec_witness :
    ((0 ≤ shiftedRank .White 0 2 ∧ shiftedRank .White 0 2 ≤ 7 ∧
      0 ≤ shiftedFile .White 6 (-1) ∧ shiftedFile .White 6 (-1) ≤ 7) →
        ∃ t, Location.move_relative ⟨0, 6⟩ .White 2 (-1) = some t ∧
          t.rank ≤ 7 ∧ t.file ≤ 7 ∧
          (t.rank : Int) = shiftedRank .White 0 2 ∧
          (t.file : Int) = shiftedFile .White 6 (-1)) ∧
    (¬ (0 ≤ shiftedRank .White 0 2 ∧ shiftedRank .White 0 2 ≤ 7 ∧
        0 ≤ shiftedFile .White 6 (-1) ∧ shiftedFile .White 6 (-1) ≤ 7) →
      Location.move_relative ⟨0, 6⟩ .White 2 (-1) = none) :=
  move_relative_spec ⟨0, 6⟩ .White 2 (-1) (by decide) (by decide)
    (by constructor <;> decide) (by constructor <;> decide)

/-- The coherence invariant of the piece map: every stored piece's
`location` field equals the key it is stored under. -/
def Coherent (b : Board) : Prop := ∀ e ∈ b.pieces, e.2.location = e.1

/-- The association list really models a map: its keys are pairwise
distinct (`HashMap` enforces this by construction). -/
def NodupKeys (b : Board) : Prop := b.pieces.Pairwise (fun e1 e2 => e1.1 ≠ e2.1)

/-- All occupied squares are on the 8x8 board, the invariant stated in
the spec's data model (rules out locations where the Rust `u8`/`i8`
casts would wrap). -/
def InRange (b : Board) : Prop := ∀ e ∈ b.pieces, e.1.rank ≤ 7 ∧ e.1.file ≤ 7

instance (b : Board) : Decidable (Coherent b) :=
  inferInstanceAs (Decidable (∀ e ∈ b.pieces, e.2.location = e.1))

instance (b : Board) : Decidable (NodupKeys b) :=
  inferInstanceAs
    (Decidable (List.Pairwise (fun (e1 e2 : Location × Piece) => e1.1 ≠ e2.1) b.pieces))

instance (b : Board) : Decidable (InRange b) :=
  inferInstanceAs (Decidable (∀ e ∈ b.pieces, e.1.rank ≤ 7 ∧ e.1.file ≤ 7))

lemma coherent_add (b : Board) (p : Piece) (h : Coherent b) :
    Coherent (b.add_piece p) := by
  intro e he
  simp only [Board.add_piece] at he
  rcases List.mem_cons.mp he with he | he
  · rw [he]
  · exact h e (List.mem_of_mem_filter he)

/-- C3: `apply_move(Simple(src, dst))` with a piece on `src` removes it
from `src`, stores it at `dst` with its location field updated to `dst`
(any previous occupant of `dst` is no longer retrievable), leaves every
other square unchanged, and flips `to_move` exactly once; with `src`
empty it fails (the `expect` panic). -/
theorem apply_move_spec (b : Board) (src dst : Location) :
    (b.get_piece src = none → b.apply_move (.Simple src dst) = none) ∧
    (∀ p, b.get_piece src = some p →
      ∃ b', b.apply_move (.Simple src dst) = some b' ∧
        b'.get_piece dst = some { p with location := dst } ∧
        (src ≠ dst → b'.get_piece src = none) ∧
        (∀ l, l ≠ dst → l ≠ src → b'.get_piece l = b.get_piece l) ∧
        (b.to_move = .White → b'.to_move = .Black) ∧
        (b.to_move = .Black → b'.to_move = .White)) := by
  constructor
  · intro h
    simp only [Board.get_piece] at h
    simp [Board.apply_move, h]
  · intro p h
    simp only [Board.get_piece] at h
    refine ⟨{ pieces := (dst, { p with location := dst }) ::
        removeLoc (removeLoc b.pieces src) dst, to_move := b.to_move.flip },
      by simp [Board.apply_move, h], ?_, ?_, ?_, ?_, ?_⟩
    · simp [Board.get_piece]
    · intro hne
      simp only [Board.get_piece, lookupLoc_cons]
      rw [if_neg (fun hds : dst = src => hne hds.symm), lookupLoc_removeLoc,
        if_neg (fun hsd : src = dst => hne hsd), lookupLoc_removeLoc, if_pos rfl]
    · intro l hld hls
      simp only [Board.get_piece, lookupLoc_cons]
      rw [if_neg (fun hds : dst = l => hld hds.symm), lookupLoc_removeLoc,
        if_neg hld, lookupLoc_removeLoc, if_neg hls]
    · intro hw; simp [hw, Color.flip]
    · intro hb; simp [hb, Color.flip]

/-- A one-pawn board used by witnesses: a white pawn on a2, White to move. -/
def pawnA2Board : Board :=
  { pieces := [(⟨1, 0⟩, ⟨.White, .Pawn, ⟨1, 0⟩⟩)], to_move := .White }

/-- Witness for C3: moving the a2 pawn of a one-pawn board to a4. -/
theorem apply_move_spec_witness :
    pawnA2Board.get_piece ⟨1, 0⟩ = some ⟨.White, .Pawn, ⟨1, 0⟩⟩ ∧
    ((pawnA2Board.get_piece ⟨1, 0⟩ = none →
      pawnA2Board.apply_move (.Simple ⟨1, 0⟩ ⟨3, 0⟩) = none) ∧
     (∀ p, pawnA2Board.get_piece ⟨1, 0⟩ = some p →
      ∃ b', pawnA2Board.apply_move (.Simple ⟨1, 0⟩ ⟨3, 0⟩) = some b' ∧
        b'.get_piece ⟨3, 0⟩ = some { p with location := ⟨3, 0⟩ } ∧
        ((⟨1, 0⟩ : Location) ≠ ⟨3, 0⟩ → b'.get_piece ⟨1, 0⟩ = none) ∧
        (∀ l, l ≠ ⟨3, 0⟩ → l ≠ ⟨1, 0⟩ → b'.get_piece l = pawnA2Board.get_piece l) ∧
        (pawnA2Board.to_move = .White → b'.to_move = .Black) ∧
        (pawnA2Board.to_move = .Black → b'.to_move = .White))) :=
  ⟨by decide, apply_move_spec pawnA2Board ⟨1, 0⟩ ⟨3, 0⟩⟩

lemma placeAll_coherent (s : List Char) :
    ∀ (pairs : List (Nat × Nat)) (b b2 : Board),
      Coherent b → placeAll s pairs b = some b2 → Coherent b2 := by
  intro pairs
  induction pairs with
  | nil =>
    intro b b2 hb h
    simp only [placeAll, Option.some.injEq] at h
    rw [← h]; exact hb
  | cons rf rest ih =>
    intro b b2 hb h
    simp only [placeAll] at h
    rcases hdec : decodeAt s rf.1 rf.2 with - | op
    · rw [hdec] at h; exact absurd h (by simp)
    · rw [hdec] at h
      rcases op with - | p
      · exact ih b b2 hb h
      · exact ih _ b2 (coherent_add b p hb) h

/-- C10: the coherence invariant (each stored piece's location equals its
map key) is established by `from_repr` and re-established by
`apply_move`, which updates the moved piece's location to `dst` before
reinserting it under the key `dst`. -/
theorem coherence_preserved :
    (∀ (s : List Char) (b : Board), Board.from_repr s = some b → Coherent b) ∧
    (∀ (b : Board) (m : Move) (b2 : Board),
      Coherent b → b.apply_move m = some b2 → Coherent b2) := by
  constructor
  · intro s b h
    simp only [Board.from_repr] at h
    split at h
    · exact placeAll_coherent s rfPairs Board.new b (by intro e he; cases he) h
    · exact absurd h (by simp)
  · intro b m b2 hb h
    rcases m with ⟨src, dst⟩
    simp only [Board.apply_move] at h
    rcases hlook : lookupLoc b.pieces src with - | p
    · rw [hlook] at h; exact absurd h (by simp)
    · rw [hlook] at h
      simp only [Option.some.injEq] at h
      rw [← h]
      intro e he
      rcases List.mem_cons.mp he with he | he
      · rw [he]
      · exact hb e (List.mem_of_mem_filter (List.mem_of_mem_filter he))

/-- Witness for C10: the default layout establishes coherence, and a
pawn move on a coherent one-pawn board preserves it. -/
theorem coherence_preserved_witness :
    Board.from_repr defaultRepr = some Board.defaultBoard ∧
    Coherent Board.defaultBoard ∧
    Coherent pawnA2Board ∧
    pawnA2Board.apply_move (.Simple ⟨1, 0⟩ ⟨3, 0⟩) =
      some { pieces := [(⟨3, 0⟩, ⟨.White, .Pawn, ⟨3, 0⟩⟩)], to_move := .Black } ∧
    Coherent ({ pieces := [(⟨3, 0⟩, ⟨.White, .Pawn, ⟨3, 0⟩⟩)], to_move := .Black } : Board) :=
  ⟨by decide, coherence_preserved.1 defaultRepr Board.defaultBoard (by decide), by decide,
    by decide,
    coherence_preserved.2 pawnA2Board (.Simple ⟨1, 0⟩ ⟨3, 0⟩) _ (by decide) (by decide)⟩

/-- Spec-side description of the notation disambiguation: the
side-to-move's pieces, filtered by the decoded kind and the optional
source file and rank, keeping only those whose own `possible_moves`
contains a move to the decoded destination. -/
def specSurvivors (b : Board) (k : Kind) (sf sr : Option Nat) (dest : Location) :
    List Piece :=
  (b.pieces.map Prod.snd).filter fun p =>
    decide (p.color = b.to_move) && decide (p.kind = k) &&
    (match sf with
     | some f => decide (p.location.file = f)
     | none => true) &&
    (match sr with
     | some r => decide (p.location.rank = r)
     | none => true) &&
    (p.possible_moves b).any fun mv => decide (mv.dst = dest)

lemma collectCandidates_eq (b : Board) (k : Kind) (sf sr : Option Nat) (dest : Location)
    (m : List (Location × Piece)) :
    collectCandidates b k sf sr dest m =
      (m.map Prod.snd).filter fun p =>
        decide (p.color = b.to_move) && decide (p.kind = k) &&
        (match sf with
         | some f => decide (p.location.file = f)
         | none => true) &&
        (match sr with
         | some r => decide (p.location.rank = r)
         | none => true) &&
        (p.possible_moves b).any fun mv => decide (mv.dst = dest) := by
  have hfun : (fun mv : Move =>
      match mv with
      | Move.Simple _ t => decide (t = dest)) = fun mv => decide (mv.dst = dest) :=
    funext fun mv => by cases mv; rfl
  induction m with
  | nil => rfl
  | cons e rest ih =>
    rcases sf with - | f <;> rcases sr with - | r <;>
      · simp only [collectCandidates, hfun, List.map_cons, List.filter_cons, ih]
        by_cases h1 : e.2.color = b.to_move <;> by_cases h2 : e.2.kind = k <;>
          by_cases h5 : ((e.2.possible_moves b).any fun mv => decide (mv.dst = dest)) = true <;>
          first
          | (by_cases h3 : e.2.location.file = f <;> by_cases h4 : e.2.location.rank = r <;>
              simp [h1, h2, h3, h4, h5])
          | (by_cases h3 : e.2.location.file = f <;> simp [h1, h2, h3, h5])
          | (by_cases h4 : e.2.location.rank = r <;> simp [h1, h2, h4, h5])
          | simp [h1, h2, h5]

/-- C2: for a notation string matching the anchored pattern
`([NBRQK]?)([a-h]?)([1-8]?)x?([a-h][1-8])`, `parse_pgn_move` filters the
side-to-move's pieces by the decoded kind and the optional source
file/rank, keeps those that can reach the decoded destination, and then
returns `Move::Simple(survivor.location, dest)` for a unique survivor,
the no-piece error for zero survivors, and the ambiguous-move error for
two or more. -/
theorem parse_pgn_move_spec (b : Board) (s : List Char) (k : Kind)
    (sf sr : Option Nat) (dest : Location) (p : Piece)
    (h : pgnParse s = some (k, sf, sr, dest)) :
    (specSurvivors b k sf sr dest = [] → b.parse_pgn_move s = .error .noPiece) ∧
    (specSurvivors b k sf sr dest = [p] →
      b.parse_pgn_move s = .ok (.Simple p.location dest)) ∧
    (2 ≤ (specSurvivors b k sf sr dest).length →
      b.parse_pgn_move s = .error .ambiguous) := by
  have hc : collectCandidates b k sf sr dest b.pieces = specSurvivors b k sf sr dest :=
    collectCandidates_eq b k sf sr dest b.pieces
  unfold Board.parse_pgn_move
  rw [h]
  simp only [hc]
  refine ⟨?_, ?_, ?_⟩
  · intro h0; rw [h0]
  · intro h1; rw [h1]
  · intro h2
    rcases hv : specSurvivors b k sf sr dest with - | ⟨q, qs⟩
    · rw [hv] at h2; simp at h2
    · rcases qs with - | ⟨q2, rest⟩
      · rw [hv] at h2; simp at h2
      · rfl

/-- Witness for C2: `"Nf3"` on the initial position decodes to a knight
move with no source hints, and the g1 knight is the unique survivor. -/
theorem parse_pgn_move_spec_witness :
    pgnParse "Nf3".toList = some (.Knight, none, none, ⟨2, 5⟩) ∧
    ((specSurvivors Board.defaultBoard .Knight none none ⟨2, 5⟩ = [] →
      Board.defaultBoard.parse_pgn_move "Nf3".toList = .error .noPiece) ∧
     (specSurvivors Board.defaultBoard .Knight none none ⟨2, 5⟩ = [⟨.White, .Knight, ⟨0, 6⟩⟩] →
      Board.defaultBoard.parse_pgn_move "Nf3".toList =
        .ok (.Simple (⟨0, 6⟩ : Location) ⟨2, 5⟩)) ∧
     (2 ≤ (specSurvivors Board.defaultBoard .Knight none none ⟨2, 5⟩).length →
      Board.defaultBoard.parse_pgn_move "Nf3".toList = .error .ambiguous)) :=
  ⟨by decide, parse_pgn_move_spec Board.defaultBoard "Nf3".toList .Knight none none ⟨2, 5⟩
    ⟨.White, .Knight, ⟨0, 6⟩⟩ (by decide)⟩

lemma forward_eq (l : Location) (c : Color) (t : Location) (h : l.forward c = some t) :
    (t.rank : Int) = shiftedRank c l.rank 1 ∧ t.file = l.file := by
  rw [Location.forward, move_relative_some_iff] at h
  obtain ⟨-, -, -, -, h5, h6⟩ := h
  refine ⟨h5, ?_⟩
  cases c <;> simp only [shiftedFile] at h6 <;> omega

lemma left_eq (l : Location) (c : Color) (t : Location) (h : l.left c = some t) :
    t.rank = l.rank ∧ (t.file : Int) = shiftedFile c l.file (-1) := by
  rw [Location.left, move_relative_some_iff] at h
  obtain ⟨-, -, -, -, h5, h6⟩ := h
  refine ⟨?_, h6⟩
  cases c <;> simp only [shiftedRank] at h5 <;> omega

lemma right_eq (l : Location) (c : Color) (t : Location) (h : l.right c = some t) :
    t.rank = l.rank ∧ (t.file : Int) = shiftedFile c l.file 1 := by
  rw [Location.right, move_relative_some_iff] at h
  obtain ⟨-, -, -, -, h5, h6⟩ := h
  refine ⟨?_, h6⟩
  cases c <;> simp only [shiftedRank] at h5 <;> omega

lemma pawnMoves_none (c : Color) (l : Location) (b : Board)
    (h : l.forward c = none) : pawnMoves c l b = [] := by
  unfold pawnMoves
  rw [h]

lemma pawnMoves_some (c : Color) (l : Location) (b : Board) (f1 : Location)
    (h : l.forward c = some f1) :
    pawnMoves c l b =
      (match b.get_piece f1 with
       | some _ => []
       | none =>
         match f1.forward c with
         | none => [Move.Simple l f1]
         | some f2 =>
           match b.get_piece f2 with
           | none => [Move.Simple l f1, Move.Simple l f2]
           | some _ => [Move.Simple l f1]) ++
      (match f1.left c with
       | none => []
       | some cl =>
         match b.get_piece cl with
         | none => []
         | some p => if p.color ≠ c then [Move.Simple l cl] else []) ++
      (match f1.right c with
       | none => []
       | some cr =>
         match b.get_piece cr with
         | none => []
         | some p => if p.color ≠ c then [Move.Simple l cr] else []) := by
  unfold pawnMoves
  rw [h]

lemma mem_forward_part (b : Board) (c : Color) (l f1 : Location) (m : Move)
    (h : m ∈ (match b.get_piece f1 with
              | some _ => ([] : List Move)
              | none =>
                match f1.forward c with
                | none => [Move.Simple l f1]
                | some f2 =>
                  match b.get_piece f2 with
                  | none => [Move.Simple l f1, Move.Simple l f2]
                  | some _ => [Move.Simple l f1])) :
    b.get_piece f1 = none ∧
      (m = Move.Simple l f1 ∨
        ∃ f2, f1.forward c = some f2 ∧ b.get_piece f2 = none ∧ m = Move.Simple l f2) := by
  rcases hp1 : b.get_piece f1 with - | q1 <;> rw [hp1] at h <;> dsimp only at h
  · rcases hq2 : f1.forward c with - | f2 <;> rw [hq2] at h <;> dsimp only at h
    · simp only [List.mem_singleton] at h
      exact ⟨rfl, Or.inl h⟩
    · rcases hq3 : b.get_piece f2 with - | q2 <;> rw [hq3] at h <;> dsimp only at h
      · rcases List.mem_cons.mp h with h | h
        · exact ⟨rfl, Or.inl h⟩
        · exact ⟨rfl, Or.inr ⟨f2, rfl, hq3, List.mem_singleton.mp h⟩⟩
      · exact ⟨rfl, Or.inl (List.mem_singleton.mp h)⟩
  · exact absurd h (List.not_mem_nil m)

lemma mem_diag_part (b : Board) (c : Color) (l : Location) (dlo : Option Location) (m : Move)
    (h : m ∈ (match dlo with
              | none => ([] : List Move)
              | some cl =>
                match b.get_piece cl with
                | none => []
                | some p => if p.color ≠ c then [Move.Simple l cl] else [])) :
    ∃ cl q, dlo = some cl ∧ m = Move.Simple l cl ∧ b.get_piece cl = some q ∧ q.color ≠ c := by
  rcases dlo with - | cl <;> dsimp only at h
  · exact absurd h (List.not_mem_nil m)
  · rcases hg : b.get_piece cl with - | q <;> rw [hg] at h <;> dsimp only at h
    · exact absurd h (List.not_mem_nil m)
    · by_cases hc : q.color ≠ c
      · rw [if_pos hc] at h
        exact ⟨cl, q, rfl, List.mem_singleton.mp h, hg, hc⟩
      · rw [if_neg hc] at h
        exact absurd h (List.not_mem_nil m)

lemma diag_part_mem (b : Board) (c : Color) (l cl : Location) (q : Piece)
    (h1 : b.get_piece cl = some q) (h2 : q.color ≠ c) :
    Move.Simple l cl ∈ (match some cl with
                        | none => ([] : List Move)
                        | some cl =>
                          match b.get_piece cl with
                          | none => []
                          | some p => if p.color ≠ c then [Move.Simple l cl] else []) := by
  dsimp only
  rw [h1]
  dsimp only
  rw [if_pos h2]
  exact List.mem_singleton.mpr rfl

/-- C4: a pawn's generated moves contain the single forward step iff the
square one step forward (in the pawn's own color frame) exists and is
empty; the double step iff both forward squares exist and are empty
(regardless of the pawn's rank); and a diagonal-forward move iff that
diagonal square holds an opposing piece — never onto an empty or
own-color square.  A pawn with no forward square generates nothing. -/
theorem pawn_moves_spec (b : Board) (c : Color) (l : Location)
    (hr : l.rank ≤ 7) (hf : l.file ≤ 7) :
    (l.forward c = none → pawnMoves c l b = []) ∧
    (∀ f1, l.forward c = some f1 →
      ((Move.Simple l f1 ∈ pawnMoves c l b) ↔ b.get_piece f1 = none)) ∧
    (∀ f1 f2, l.forward c = some f1 → f1.forward c = some f2 →
      ((Move.Simple l f2 ∈ pawnMoves c l b) ↔
        b.get_piece f1 = none ∧ b.get_piece f2 = none)) ∧
    (∀ f1 dl, l.forward c = some f1 → f1.left c = some dl →
      ((Move.Simple l dl ∈ pawnMoves c l b) ↔
        ∃ q, b.get_piece dl = some q ∧ q.color ≠ c)) ∧
    (∀ f1 dr, l.forward c = some f1 → f1.right c = some dr →
      ((Move.Simple l dr ∈ pawnMoves c l b) ↔
        ∃ q, b.get_piece dr = some q ∧ q.color ≠ c)) := by
  refine ⟨pawnMoves_none c l b, ?_, ?_, ?_, ?_⟩
  · -- single step
    intro f1 hf1
    rw [pawnMoves_some c l b f1 hf1]
    constructor
    · intro hm
      rcases List.mem_append.mp hm with hm | hm
      · rcases List.mem_append.mp hm with hm | hm
        · exact (mem_forward_part b c l f1 _ hm).1
        · obtain ⟨cl, q, hcl, heq, -, -⟩ := mem_diag_part b c l _ _ hm
          obtain ⟨-, hclf⟩ := left_eq f1 c cl hcl
          have hfc : f1 = cl := (Move.Simple.inj heq).2
          rw [← hfc] at hclf
          cases c <;> simp only [shiftedFile] at hclf <;> omega
      · obtain ⟨cr, q, hcr, heq, -, -⟩ := mem_diag_part b c l _ _ hm
        obtain ⟨-, hcrf⟩ := right_eq f1 c cr hcr
        have hfc : f1 = cr := (Move.Simple.inj heq).2
        rw [← hfc] at hcrf
        cases c <;> simp only [shiftedFile] at hcrf <;> omega
    · intro hp1
      refine List.mem_append.mpr (Or.inl (List.mem_append.mpr (Or.inl ?_)))
      rw [hp1]
      dsimp only
      rcases hq2 : f1.forward c with - | f2 <;> dsimp only
      · exact List.mem_singleton.mpr rfl
      · rcases hq3 : b.get_piece f2 with - | q2 <;> dsimp only
        · exact List.mem_cons_self _ _
        · exact List.mem_singleton.mpr rfl
  · -- double step
    intro f1 f2 hf1 hf2
    obtain ⟨hf1r, hf1f⟩ := forward_eq l c f1 hf1
    obtain ⟨hf2r, hf2f⟩ := forward_eq f1 c f2 hf2
    have hne12 : f1 ≠ f2 := by
      intro he
      rw [he] at hf2r
      cases c <;> simp only [shiftedRank] at hf2r <;> omega
    rw [pawnMoves_some c l b f1 hf1]
    constructor
    · intro hm
      rcases List.mem_append.mp hm with hm | hm
      · rcases List.mem_append.mp hm with hm | hm
        · obtain ⟨hp1, hrest⟩ := mem_forward_part b c l f1 _ hm
          rcases hrest with heq | ⟨f2', hq2', hq3', heq⟩
          · exact absurd (Move.Simple.inj heq).2.symm hne12
          · rw [hf2] at hq2'
            obtain rfl : f2' = f2 := (Option.some.inj hq2').symm
            exact ⟨hp1, hq3'⟩
        · obtain ⟨cl, q, hcl, heq, -, -⟩ := mem_diag_part b c l _ _ hm
          obtain ⟨-, hclf⟩ := left_eq f1 c cl hcl
          have hfc : f2 = cl := (Move.Simple.inj heq).2
          rw [← hfc] at hclf
          cases c <;> simp only [shiftedFile] at hclf <;> omega
      · obtain ⟨cr, q, hcr, heq, -, -⟩ := mem_diag_part b c l _ _ hm
        obtain ⟨-, hcrf⟩ := right_eq f1 c cr hcr
        have hfc : f2 = cr := (Move.Simple.inj heq).2
        rw [← hfc] at hcrf
        cases c <;> simp only [shiftedFile] at hcrf <;> omega
    · rintro ⟨hp1, hp2⟩
      refine List.mem_append.mpr (Or.inl (List.mem_append.mpr (Or.inl ?_)))
      rw [hp1]
      dsimp only
      rw [hf2]
      dsimp only
      rw [hp2]
      exact List.mem_cons.mpr (Or.inr (List.mem_singleton.mpr rfl))
  · -- left diagonal capture
    intro f1 dl hf1 hdl
    obtain ⟨hf1r, hf1f⟩ := forward_eq l c f1 hf1
    obtain ⟨hdlr, hdlf⟩ := left_eq f1 c dl hdl
    rw [pawnMoves_some c l b f1 hf1]
    constructor
    · intro hm
      rcases List.mem_append.mp hm with hm | hm
      · rcases List.mem_append.mp hm with hm | hm
        · obtain ⟨-, hrest⟩ := mem_forward_part b c l f1 _ hm
          rcases hrest with heq | ⟨f2', hq2', -, heq⟩
          · have hfc : dl = f1 := (Move.Simple.inj heq).2
            rw [hfc] at hdlf
            cases c <;> simp only [shiftedFile] at hdlf <;> omega
          · obtain ⟨-, hf2f'⟩ := forward_eq f1 c f2' hq2'
            have hfc : dl = f2' := (Move.Simple.inj heq).2
            rw [hfc] at hdlf
            cases c <;> simp only [shiftedFile] at hdlf <;> omega
        · obtain ⟨cl, q, hcl, heq, hq, hqc⟩ := mem_diag_part b c l _ _ hm
          rw [hdl] at hcl
          obtain rfl : dl = cl := Option.some.inj hcl
          exact ⟨q, hq, hqc⟩
      · obtain ⟨cr, q, hcr, heq, -, -⟩ := mem_diag_part b c l _ _ hm
        obtain ⟨-, hcrf⟩ := right_eq f1 c cr hcr
        have hfc : dl = cr := (Move.Simple.inj heq).2
        rw [hfc] at hdlf
        cases c <;> simp only [shiftedFile] at hdlf hcrf <;> omega
    · rintro ⟨q, hq, hqc⟩
      refine List.mem_append.mpr (Or.inl (List.mem_append.mpr (Or.inr ?_)))
      rw [hdl]
      exact diag_part_mem b c l dl q hq hqc
  · -- right diagonal capture
    intro f1 dr hf1 hdr
    obtain ⟨hf1r, hf1f⟩ := forward_eq l c f1 hf1
    obtain ⟨hdrr, hdrf⟩ := right_eq f1 c dr hdr
    rw [pawnMoves_some c l b f1 hf1]
    constructor
    · intro hm
      rcases List.mem_append.mp hm with hm | hm
      · rcases List.mem_append.mp hm with hm | hm
        · obtain ⟨-, hrest⟩ := mem_forward_part b c l f1 _ hm
          rcases hrest with heq | ⟨f2', hq2', -, heq⟩
          · have hfc : dr = f1 := (Move.Simple.inj heq).2
            rw [hfc] at hdrf
            cases c <;> simp only [shiftedFile] at hdrf <;> omega
          · obtain ⟨-, hf2f'⟩ := forward_eq f1 c f2' hq2'
            have hfc : dr = f2' := (Move.Simple.inj heq).2
            rw [hfc] at hdrf
            cases c <;> simp only [shiftedFile] at hdrf <;> omega
        · obtain ⟨cl, q, hcl, heq, -, -⟩ := mem_diag_part b c l _ _ hm
          obtain ⟨-, hclf⟩ := left_eq f1 c cl hcl
          have hfc : dr = cl := (Move.Simple.inj heq).2
          rw [hfc] at hdrf
          cases c <;> simp only [shiftedFile] at hdrf hclf <;> omega
      · obtain ⟨cr, q, hcr, heq, hq, hqc⟩ := mem_diag_part b c l _ _ hm
        rw [hdr] at hcr
        obtain rfl : dr = cr := Option.some.inj hcr
        exact ⟨q, hq, hqc⟩
    · rintro ⟨q, hq, hqc⟩
      refine List.mem_append.mpr (Or.inr ?_)
      rw [hdr]
      exact diag_part_mem b c l dr q hq hqc

/-- Witness for C4: the e2 pawn on the initial position. -/
theorem pawn_moves_spec_witness :
    ((⟨1, 4⟩ : Location).rank ≤ 7 ∧ (⟨1, 4⟩ : Location).file ≤ 7) ∧
    ((Location.forward ⟨1, 4⟩ .White = none →
        pawnMoves .White ⟨1, 4⟩ Board.defaultBoard = []) ∧
     (∀ f1, Location.forward ⟨1, 4⟩ .White = some f1 →
       ((Move.Simple ⟨1, 4⟩ f1 ∈ pawnMoves .White ⟨1, 4⟩ Board.defaultBoard) ↔
         Board.defaultBoard.get_piece f1 = none)) ∧
     (∀ f1 f2, Location.forward ⟨1, 4⟩ .White = some f1 → f1.forward .White = some f2 →
       ((Move.Simple ⟨1, 4⟩ f2 ∈ pawnMoves .White ⟨1, 4⟩ Board.defaultBoard) ↔
         Board.defaultBoard.get_piece f1 = none ∧ Board.defaultBoard.get_piece f2 = none)) ∧
     (∀ f1 dl, Location.forward ⟨1, 4⟩ .White = some f1 → f1.left .White = some dl →
       ((Move.Simple ⟨1, 4⟩ dl ∈ pawnMoves .White ⟨1, 4⟩ Board.defaultBoard) ↔
         ∃ q, Board.defaultBoard.get_piece dl = some q ∧ q.color ≠ .White)) ∧
     (∀ f1 dr, Location.forward ⟨1, 4⟩ .White = some f1 → f1.right .White = some dr →
       ((Move.Simple ⟨1, 4⟩ dr ∈ pawnMoves .White ⟨1, 4⟩ Board.defaultBoard) ↔
         ∃ q, Board.defaultBoard.get_piece dr = some q ∧ q.color ≠ .White))) :=
  ⟨⟨by decide, by decide⟩,
    pawn_moves_spec Board.defaultBoard .White ⟨1, 4⟩ (by decide) (by decide)⟩

/-- The occupancy condition every generated move's target satisfies:
empty, or holding an opposing piece. -/
def targetOk (b : Board) (c : Color) (t : Location) : Prop :=
  b.get_piece t = none ∨ ∃ q, b.get_piece t = some q ∧ q.color ≠ c

lemma move_relative_ne_rank (l : Location) (c : Color) (rs fs : Int) (t : Location)
    (h : l.move_relative c rs fs = some t) (hrs : rs ≠ 0) : t.rank ≠ l.rank := by
  rw [move_relative_some_iff] at h
  obtain ⟨-, -, -, -, h5, -⟩ := h
  cases c <;> simp only [shiftedRank] at h5 <;> omega

lemma move_relative_ne_file (l : Location) (c : Color) (rs fs : Int) (t : Location)
    (h : l.move_relative c rs fs = some t) (hfs : fs ≠ 0) : t.file ≠ l.file := by
  rw [move_relative_some_iff] at h
  obtain ⟨-, -, -, -, -, h6⟩ := h
  cases c <;> simp only [shiftedFile] at h6 <;> omega

lemma pawnMoves_sound (c : Color) (l : Location) (b : Board) (m : Move)
    (hm : m ∈ pawnMoves c l b) :
    ∃ t, m = Move.Simple l t ∧ t ≠ l ∧ targetOk b c t := by
  rcases hf1 : l.forward c with - | f1
  · rw [pawnMoves_none c l b hf1] at hm
    exact absurd hm (List.not_mem_nil m)
  · obtain ⟨hf1r, hf1f⟩ := forward_eq l c f1 hf1
    have hne1 : f1 ≠ l := by
      intro he
      rw [he] at hf1r
      cases c <;> simp only [shiftedRank] at hf1r <;> omega
    rw [pawnMoves_some c l b f1 hf1] at hm
    rcases List.mem_append.mp hm with hm | hm
    · rcases List.mem_append.mp hm with hm | hm
      · obtain ⟨hp1, hrest⟩ := mem_forward_part b c l f1 m hm
        rcases hrest with heq | ⟨f2, hq2, hq3, heq⟩
        · exact ⟨f1, heq, hne1, Or.inl hp1⟩
        · obtain ⟨hf2r, -⟩ := forward_eq f1 c f2 hq2
          refine ⟨f2, heq, ?_, Or.inl hq3⟩
          intro he
          rw [he] at hf2r
          cases c <;> simp only [shiftedRank] at hf2r hf1r <;> omega
      · obtain ⟨cl, q, hcl, heq, hq, hqc⟩ := mem_diag_part b c l _ m hm
        obtain ⟨hclr, -⟩ := left_eq f1 c cl hcl
        refine ⟨cl, heq, ?_, Or.inr ⟨q, hq, hqc⟩⟩
        intro he
        rw [he] at hclr
        cases c <;> simp only [shiftedRank] at hf1r <;> omega
    · obtain ⟨cr, q, hcr, heq, hq, hqc⟩ := mem_diag_part b c l _ m hm
      obtain ⟨hcrr, -⟩ := right_eq f1 c cr hcr
      refine ⟨cr, heq, ?_, Or.inr ⟨q, hq, hqc⟩⟩
      intro he
      rw [he] at hcrr
      cases c <;> simp only [shiftedRank] at hf1r <;> omega

lemma knightMoves_sound (c : Color) (l : Location) (b : Board) (m : Move)
    (hm : m ∈ knightMoves c l b) :
    ∃ t, m = Move.Simple l t ∧ t ≠ l ∧ targetOk b c t := by
  unfold knightMoves at hm
  obtain ⟨o, ho, hmo⟩ := List.mem_flatMap.mp hm
  have ho1 : o.1 ≠ 0 := by
    simp only [knightOffsets, List.mem_cons, List.not_mem_nil, or_false] at ho
    rcases ho with rfl | rfl | rfl | rfl | rfl | rfl | rfl | rfl <;> decide
  rcases hmr : l.move_relative c o.1 o.2 with - | t <;> rw [hmr] at hmo <;> dsimp only at hmo
  · exact absurd hmo (List.not_mem_nil m)
  · have hne : t ≠ l := fun he =>
      move_relative_ne_rank l c o.1 o.2 t hmr ho1 (he ▸ rfl)
    rcases hg : b.get_piece t with - | q <;> rw [hg] at hmo <;> dsimp only at hmo
    · exact ⟨t, List.mem_singleton.mp hmo, hne, Or.inl hg⟩
    · by_cases hqc : q.color ≠ c
      · rw [if_pos hqc] at hmo
        exact ⟨t, List.mem_singleton.mp hmo, hne, Or.inr ⟨q, hg, hqc⟩⟩
      · rw [if_neg hqc] at hmo
        exact absurd hmo (List.not_mem_nil m)

lemma rayLoop_sound (b : Board) (c : Color) (l : Location) (d : Int × Int)
    (hd : d.1 ≠ 0 ∨ d.2 ≠ 0) :
    ∀ ks : List Nat, (∀ k ∈ ks, 1 ≤ k) → ∀ m, m ∈ rayLoop b c l d ks →
      ∃ t, m = Move.Simple l t ∧ t ≠ l ∧ targetOk b c t := by
  intro ks
  induction ks with
  | nil =>
    intro _hks m hm
    exact absurd hm (List.not_mem_nil m)
  | cons k ks ih =>
    intro hks m hm
    have hk1 : 1 ≤ k := hks k (List.mem_cons_self k ks)
    rw [rayLoop] at hm
    rcases hmr : l.move_relative c ((k : Int) * d.1) ((k : Int) * d.2) with - | t <;>
      rw [hmr] at hm <;> dsimp only at hm
    · exact ih (fun j hj => hks j (List.mem_cons_of_mem k hj)) m hm
    · have hne : t ≠ l := by
        rcases hd with hd | hd
        · exact fun he => move_relative_ne_rank l c _ _ t hmr
            (by simp; omega) (he ▸ rfl)
        · exact fun he => move_relative_ne_file l c _ _ t hmr
            (by simp; omega) (he ▸ rfl)
      rcases hg : b.get_piece t with - | q <;> rw [hg] at hm <;> dsimp only at hm
      · rcases List.mem_cons.mp hm with hm | hm
        · exact ⟨t, hm, hne, Or.inl hg⟩
        · exact ih (fun j hj => hks j (List.mem_cons_of_mem k hj)) m hm
      · by_cases hqc : q.color ≠ c
        · rw [if_pos hqc] at hm
          exact ⟨t, List.mem_singleton.mp hm, hne, Or.inr ⟨q, hg, hqc⟩⟩
        · rw [if_neg hqc] at hm
          exact absurd hm (List.not_mem_nil m)

lemma piece_moves_sound (p : Piece) (b : Board) (m : Move)
    (hm : m ∈ p.possible_moves b) :
    ∃ t, m = Move.Simple p.location t ∧ t ≠ p.location ∧ targetOk b p.color t := by
  unfold Piece.possible_moves at hm
  have hray : ∀ dirs : List (Int × Int), (∀ d ∈ dirs, d.1 ≠ 0 ∨ d.2 ≠ 0) →
      m ∈ dirs.flatMap (fun d => rayLoop b p.color p.location d rayDistances) →
      ∃ t, m = Move.Simple p.location t ∧ t ≠ p.location ∧ targetOk b p.color t := by
    intro dirs hdirs hmem
    obtain ⟨d, hd, hmd⟩ := List.mem_flatMap.mp hmem
    exact rayLoop_sound b p.color p.location d (hdirs d hd) rayDistances
      (by intro j hj; simp only [rayDistances, List.mem_range'_1] at hj; omega) m hmd
  rcases hk : p.kind with - | - | - | - | - | -
  all_goals rw [hk] at hm
  · exact absurd hm (List.not_mem_nil m)
  · exact hray queenDirections (by decide) hm
  · exact hray rookDirections (by decide) hm
  · exact hray bishopDirections (by decide) hm
  · exact knightMoves_sound p.color p.location b m hm
  · exact pawnMoves_sound p.color p.location b m hm

lemma lookupLoc_of_mem (m : List (Location × Piece)) (e : Location × Piece)
    (hmem : e ∈ m) (hnd : m.Pairwise fun e1 e2 => e1.1 ≠ e2.1) :
    lookupLoc m e.1 = some e.2 := by
  induction m with
  | nil => exact absurd hmem (List.not_mem_nil e)
  | cons e1 rest ih =>
    rcases List.mem_cons.mp hmem with he | he
    · rw [he, lookupLoc_cons, if_pos rfl]
    · rw [lookupLoc_cons,
        if_neg ((List.pairwise_cons.mp hnd).1 e he),
        ih he (List.pairwise_cons.mp hnd).2]

/-- C9: on any coherent board (each stored piece's location is its map
key, keys distinct as in a `HashMap`), every move produced by
`Board::possible_moves` starts on a square holding a piece of the
side to move, never stays in place, and never targets an own-color
piece: the destination is empty or holds an opposing piece. -/
theorem possible_moves_sound (b : Board) (m : Move)
    (hco : Coherent b) (hnd : NodupKeys b)
    (hm : m ∈ b.possible_moves) :
    ∃ src dst, m = .Simple src dst ∧
      (∃ q, b.get_piece src = some q ∧ q.color = b.to_move) ∧
      src ≠ dst ∧
      (b.get_piece dst = none ∨ ∃ q, b.get_piece dst = some q ∧ q.color ≠ b.to_move) := by
  unfold Board.possible_moves at hm
  obtain ⟨e, he, hme⟩ := List.mem_flatMap.mp hm
  by_cases hc : e.2.color = b.to_move
  · rw [if_pos hc] at hme
    obtain ⟨t, hmeq, hne, hok⟩ := piece_moves_sound e.2 b m hme
    have hloc : e.2.location = e.1 := hco e he
    have hsrc : b.get_piece e.2.location = some e.2 := by
      rw [hloc]
      exact lookupLoc_of_mem b.pieces e he hnd
    refine ⟨e.2.location, t, hmeq, ⟨e.2, hsrc, hc⟩, fun hst => hne hst.symm, ?_⟩
    rcases hok with hok | ⟨q, hq, hqc⟩
    · exact Or.inl hok
    · exact Or.inr ⟨q, hq, by rw [← hc]; exact hqc⟩
  · rw [if_neg hc] at hme
    exact absurd hme (List.not_mem_nil m)

/-- Witness for C9: the double pawn step from the initial position. -/
theorem possible_moves_sound_witness :
    (Coherent Board.defaultBoard ∧ NodupKeys Board.defaultBoard ∧
      Move.Simple ⟨1, 4⟩ ⟨3, 4⟩ ∈ Board.defaultBoard.possible_moves) ∧
    (∃ src dst, Move.Simple ⟨1, 4⟩ ⟨3, 4⟩ = Move.Simple src dst ∧
      (∃ q, Board.defaultBoard.get_piece src = some q ∧
        q.color = Board.defaultBoard.to_move) ∧
      src ≠ dst ∧
      (Board.defaultBoard.get_piece dst = none ∨
        ∃ q, Board.defaultBoard.get_piece dst = some q ∧
          q.color ≠ Board.defaultBoard.to_move)) :=
  ⟨⟨by decide, by decide, by decide⟩,
    possible_moves_sound Board.defaultBoard (.Simple ⟨1, 4⟩ ⟨3, 4⟩)
      (by decide) (by decide) (by decide)⟩

lemma int_step_mono (x s : Int) (a k : Nat) (ha : 1 ≤ a) (hak : a ≤ k)
    (hx0 : 0 ≤ x) (hx7 : x ≤ 7) :
    (x + (a : Int) * s < 0 → x + (k : Int) * s < 0) ∧
    (7 < x + (a : Int) * s → 7 < x + (k : Int) * s) := by
  have ha' : (1 : Int) ≤ (a : Int) := by exact_mod_cast ha
  have hak' : (a : Int) ≤ (k : Int) := by exact_mod_cast hak
  constructor <;> intro h
  · have hs : s < 0 := by nlinarith
    nlinarith
  · have hs : 0 < s := by nlinarith
    nlinarith

/-- Once a ray leaves the board it never comes back: if the step at
distance `a` is off-board, so is every later step. -/
lemma mr_none_mono (l : Location) (c : Color) (d : Int × Int)
    (hr : l.rank ≤ 7) (hf : l.file ≤ 7) (a : Nat) (ha : 1 ≤ a)
    (hnone : l.move_relative c ((a : Int) * d.1) ((a : Int) * d.2) = none) :
    ∀ k : Nat, a ≤ k →
      l.move_relative c ((k : Int) * d.1) ((k : Int) * d.2) = none := by
  intro k hk
  rw [move_relative_none_iff] at hnone ⊢
  have hr' : ((l.rank : Int)) ≤ 7 := by exact_mod_cast hr
  have hf' : ((l.file : Int)) ≤ 7 := by exact_mod_cast hf
  have hr0 : (0 : Int) ≤ (l.rank : Int) := Int.ofNat_nonneg l.rank
  have hf0 : (0 : Int) ≤ (l.file : Int) := Int.ofNat_nonneg l.file
  cases c <;> simp only [shiftedRank, shiftedFile] at hnone ⊢
  · rcases hnone with h | h | h | h
    · exact Or.inl ((int_step_mono (l.rank : Int) d.1 a k ha hk hr0 hr').1 h)
    · exact Or.inr (Or.inl ((int_step_mono (l.rank : Int) d.1 a k ha hk hr0 hr').2 h))
    · exact Or.inr (Or.inr (Or.inl
        ((int_step_mono (l.file : Int) d.2 a k ha hk hf0 hf').1 h)))
    · exact Or.inr (Or.inr (Or.inr
        ((int_step_mono (l.file : Int) d.2 a k ha hk hf0 hf').2 h)))
  · simp only [sub_eq_add_neg, ← mul_neg] at hnone ⊢
    rcases hnone with h | h | h | h
    · exact Or.inl ((int_step_mono (l.rank : Int) (-d.1) a k ha hk hr0 hr').1 h)
    · exact Or.inr (Or.inl ((int_step_mono (l.rank : Int) (-d.1) a k ha hk hr0 hr').2 h))
    · exact Or.inr (Or.inr (Or.inl
        ((int_step_mono (l.file : Int) (-d.2) a k ha hk hf0 hf').1 h)))
    · exact Or.inr (Or.inr (Or.inr
        ((int_step_mono (l.file : Int) (-d.2) a k ha hk hf0 hf').2 h)))

/-- The exact contents of a suffix of the ray walk: `m` is produced from
the distances `[a, a+n)` iff some distance `k` in that window reaches a
square `t` on the board with every strictly earlier distance in the
window landing on an empty board square, and `t` itself empty or
holding an opposing piece. -/
lemma rayLoop_mem_iff (b : Board) (c : Color) (l : Location) (d : Int × Int)
    (hr : l.rank ≤ 7) (hf : l.file ≤ 7) (m : Move) :
    ∀ (n a : Nat), 1 ≤ a →
      (m ∈ rayLoop b c l d (List.range' a n) ↔
        ∃ k, a ≤ k ∧ k < a + n ∧
          ∃ t, l.move_relative c ((k : Int) * d.1) ((k : Int) * d.2) = some t ∧
            (∀ j, a ≤ j → j < k →
              ∃ s, l.move_relative c ((j : Int) * d.1) ((j : Int) * d.2) = some s ∧
                b.get_piece s = none) ∧
            (b.get_piece t = none ∨ ∃ q, b.get_piece t = some q ∧ q.color ≠ c) ∧
            m = Move.Simple l t) := by
  intro n
  induction n with
  | zero =>
    intro a _ha
    simp only [List.range'_zero, rayLoop, List.not_mem_nil, false_iff]
    rintro ⟨k, hk1, hk2, -⟩
    omega
  | succ n ih =>
    intro a ha
    rw [List.range'_succ, rayLoop]
    rcases hma : l.move_relative c ((a : Int) * d.1) ((a : Int) * d.2) with - | t0 <;>
      dsimp only
    · have hnone := mr_none_mono l c d hr hf a ha hma
      rw [ih (a + 1) (by omega)]
      constructor
      · rintro ⟨k, hk1, -, t, hmt, -⟩
        rw [hnone k (by omega)] at hmt
        exact absurd hmt (by simp)
      · rintro ⟨k, hk1, -, t, hmt, -⟩
        rw [hnone k hk1] at hmt
        exact absurd hmt (by simp)
    · rcases hg : b.get_piece t0 with - | q <;> dsimp only
      · constructor
        · intro hm
          rcases List.mem_cons.mp hm with hm | hm
          · exact ⟨a, le_refl a, by omega, t0, hma, fun j hj1 hj2 => by omega, Or.inl hg, hm⟩
          · obtain ⟨k, hk1, hk2, t, hmt, hj, hok, hme⟩ := (ih (a + 1) (by omega)).mp hm
            refine ⟨k, by omega, by omega, t, hmt, ?_, hok, hme⟩
            intro j hj1 hj2
            rcases Nat.eq_or_lt_of_le hj1 with he | hlt
            · exact ⟨t0, he ▸ hma, hg⟩
            · exact hj j (by omega) hj2
        · rintro ⟨k, hk1, hk2, t, hmt, hj, hok, hme⟩
          rcases Nat.eq_or_lt_of_le hk1 with he | hlt
          · rw [← he] at hmt
            rw [hma] at hmt
            obtain rfl : t0 = t := Option.some.inj hmt
            exact List.mem_cons.mpr (Or.inl hme)
          · refine List.mem_cons.mpr (Or.inr ((ih (a + 1) (by omega)).mpr
              ⟨k, by omega, by omega, t, hmt, fun j hj1 hj2 => hj j (by omega) hj2,
                hok, hme⟩))
      · by_cases hqc : q.color ≠ c
        · rw [if_pos hqc]
          constructor
          · intro hm
            exact ⟨a, le_refl a, by omega, t0, hma, fun j hj1 hj2 => by omega,
              Or.inr ⟨q, hg, hqc⟩, List.mem_singleton.mp hm⟩
          · rintro ⟨k, hk1, hk2, t, hmt, hj, hok, hme⟩
            rcases Nat.eq_or_lt_of_le hk1 with he | hlt
            · rw [← he] at hmt
              rw [hma] at hmt
              obtain rfl : t0 = t := Option.some.inj hmt
              exact List.mem_singleton.mpr hme
            · obtain ⟨s, hms, hgs⟩ := hj a (le_refl a) hlt
              rw [hma] at hms
              obtain rfl : t0 = s := Option.some.inj hms
              rw [hg] at hgs
              exact absurd hgs (by simp)
        · rw [if_neg hqc]
          simp only [List.not_mem_nil, false_iff]
          rintro ⟨k, hk1, hk2, t, hmt, hj, hok, hme⟩
          rcases Nat.eq_or_lt_of_le hk1 with he | hlt
          · rw [← he] at hmt
            rw [hma] at hmt
            obtain rfl : t0 = t := Option.some.inj hmt
            rcases hok with hok | ⟨q2, hq2, hq2c⟩
            · rw [hg] at hok
              exact absurd hok (by simp)
            · rw [hg] at hq2
              obtain rfl : q = q2 := Option.some.inj hq2
              exact hqc hq2c
          · obtain ⟨s, hms, hgs⟩ := hj a (le_refl a) hlt
            rw [hma] at hms
            obtain rfl : t0 = s := Option.some.inj hms
            rw [hg] at hgs
            exact absurd hgs (by simp)

/-- Spec-side description of the sliding-piece rule: a move of the piece
on `l` is a ray target for the direction set `dirs` when, along some
direction, some distance `n` (at most 7) reaches a board square with all
strictly closer squares on that ray empty, and the reached square is
itself empty or holds an opposing piece (the first occupied square,
reachable only as a capture). -/
def specRayTarget (b : Board) (c : Color) (l : Location) (dirs : List (Int × Int))
    (m : Move) : Prop :=
  ∃ d ∈ dirs, ∃ n : Nat, 1 ≤ n ∧ n ≤ 7 ∧
    ∃ t, l.move_relative c ((n : Int) * d.1) ((n : Int) * d.2) = some t ∧
      (∀ j : Nat, 1 ≤ j → j < n →
        ∃ s, l.move_relative c ((j : Int) * d.1) ((j : Int) * d.2) = some s ∧
          b.get_piece s = none) ∧
      (b.get_piece t = none ∨ ∃ q, b.get_piece t = some q ∧ q.color ≠ c) ∧
      m = Move.Simple l t

lemma sliderMoves_iff (b : Board) (c : Color) (l : Location)
    (hr : l.rank ≤ 7) (hf : l.file ≤ 7) (dirs : List (Int × Int)) (m : Move) :
    m ∈ dirs.flatMap (fun d => rayLoop b c l d rayDistances) ↔
      specRayTarget b c l dirs m := by
  rw [List.mem_flatMap]
  unfold specRayTarget
  constructor
  · rintro ⟨d, hd, hmd⟩
    rw [show rayDistances = List.range' 1 7 from rfl] at hmd
    obtain ⟨k, h1, h2, t, hmt, hj, hok, hme⟩ :=
      (rayLoop_mem_iff b c l d hr hf m 7 1 (le_refl 1)).mp hmd
    exact ⟨d, hd, k, h1, by omega, t, hmt, hj, hok, hme⟩
  · rintro ⟨d, hd, n, h1, h2, t, hmt, hj, hok, hme⟩
    refine ⟨d, hd, ?_⟩
    rw [show rayDistances = List.range' 1 7 from rfl]
    exact (rayLoop_mem_iff b c l d hr hf m 7 1 (le_refl 1)).mpr
      ⟨n, h1, by omega, t, hmt, hj, hok, hme⟩

/-- C5: for bishops, rooks and queens the generated moves are exactly the
ray targets over the piece's direction set (diagonals, orthogonals,
both): every empty square strictly before the first occupied square of a
ray is a target, the first occupied square is a target iff it holds an
opposing piece, and nothing beyond the first occupied square is ever a
target. -/
theorem slider_moves_spec (b : Board) (c : Color) (l : Location) (m : Move)
    (hr : l.rank ≤ 7) (hf : l.file ≤ 7) :
    (m ∈ bishopMoves c l b ↔ specRayTarget b c l bishopDirections m) ∧
    (m ∈ rookMoves c l b ↔ specRayTarget b c l rookDirections m) ∧
    (m ∈ queenMoves c l b ↔ specRayTarget b c l queenDirections m) :=
  ⟨sliderMoves_iff b c l hr hf bishopDirections m,
   sliderMoves_iff b c l hr hf rookDirections m,
   sliderMoves_iff b c l hr hf queenDirections m⟩

/-- Witness for C5: the a1 rook's square on the initial position. -/
theorem slider_moves_spec_witness :
    ((⟨0, 0⟩ : Location).rank ≤ 7 ∧ (⟨0, 0⟩ : Location).file ≤ 7) ∧
    ((Move.Simple ⟨0, 0⟩ ⟨2, 0⟩ ∈ bishopMoves .White ⟨0, 0⟩ Board.defaultBoard ↔
        specRayTarget Board.defaultBoard .White ⟨0, 0⟩ bishopDirections
          (Move.Simple ⟨0, 0⟩ ⟨2, 0⟩)) ∧
     (Move.Simple ⟨0, 0⟩ ⟨2, 0⟩ ∈ rookMoves .White ⟨0, 0⟩ Board.defaultBoard ↔
        specRayTarget Board.defaultBoard .White ⟨0, 0⟩ rookDirections
          (Move.Simple ⟨0, 0⟩ ⟨2, 0⟩)) ∧
     (Move.Simple ⟨0, 0⟩ ⟨2, 0⟩ ∈ queenMoves .White ⟨0, 0⟩ Board.defaultBoard ↔
        specRayTarget Board.defaultBoard .White ⟨0, 0⟩ queenDirections
          (Move.Simple ⟨0, 0⟩ ⟨2, 0⟩))) :=
  ⟨⟨by decide, by decide⟩,
    slider_moves_spec Board.defaultBoard .White ⟨0, 0⟩ (Move.Simple ⟨0, 0⟩ ⟨2, 0⟩)
      (by decide) (by decide)⟩

/-- A well-formed board glyph: one of the twelve piece glyphs or a space. -/
def validGlyph (c : Char) : Prop :=
  c ∈ ['♔', '♕', '♖', '♗', '♘', '♙', '♚', '♛', '♜', '♝', '♞', '♟', ' ']

instance (c : Char) : Decidable (validGlyph c) :=
  inferInstanceAs (Decidable (c ∈ _))

/-- Drop the inserted file-separator spaces and rank-terminating newlines
from `to_str` output: in each 16-character row the glyphs sit at the even
offsets, so stripping keeps every other character. -/
def stripSeparators : List Char → List Char
  | [] => []
  | [c] => [c]
  | c :: _ :: rest => c :: stripSeparators rest

lemma validGlyph_cases (c : Char) (l : Location) (h : validGlyph c) :
    (∃ p : Piece, pieceFromRepr c l = some (some p) ∧ reprChar p = c ∧ p.location = l) ∨
      (c = ' ' ∧ pieceFromRepr c l = some none) := by
  simp only [validGlyph, List.mem_cons, List.not_mem_nil, or_false] at h
  rcases h with rfl | rfl | rfl | rfl | rfl | rfl | rfl | rfl | rfl | rfl | rfl | rfl | rfl
  all_goals first
    | exact Or.inl ⟨_, rfl, rfl, rfl⟩
    | exact Or.inr ⟨rfl, rfl⟩

lemma getElem_opt_getD (s : List Char) (n : Nat) (h : n < s.length) :
    s[n]? = some (s.getD n ' ') := by
  rw [List.getElem?_eq_getElem h, List.getD_eq_getElem s ' ' h]

lemma getD_mem_of_lt (s : List Char) (n : Nat) (h : n < s.length) : s.getD n ' ' ∈ s := by
  rw [List.getD_eq_getElem s ' ' h]
  exact List.getElem_mem h

lemma placeAll_cons (s : List Char) (rf : Nat × Nat) (rest : List (Nat × Nat)) (b : Board) :
    placeAll s (rf :: rest) b =
      match decodeAt s rf.1 rf.2 with
      | none => none
      | some none => placeAll s rest b
      | some (some p) => placeAll s rest (b.add_piece p) := rfl

lemma pieceFromRepr_loc (c : Char) (l : Location) (p : Piece)
    (h : pieceFromRepr c l = some (some p)) : p.location = l := by
  unfold pieceFromRepr at h
  split at h <;> simp only [Option.some.injEq, reduceCtorEq] at h <;> try rw [← h]

lemma decodeAt_loc (s : List Char) (r f : Nat) (p : Piece)
    (h : decodeAt s r f = some (some p)) : p.location = ⟨r, f⟩ := by
  unfold decodeAt at h
  rcases hg : s[8 * (7 - r) + f]? with - | ch <;> rw [hg] at h
  · exact absurd h (by simp)
  · exact pieceFromRepr_loc ch ⟨r, f⟩ p h

lemma get_add_piece (b : Board) (p : Piece) (l : Location) :
    (b.add_piece p).get_piece l = if p.location = l then some p else b.get_piece l := by
  unfold Board.add_piece Board.get_piece
  dsimp only
  rw [lookupLoc_cons]
  rcases eq_or_ne p.location l with he | he
  · rw [if_pos he, if_pos he]
  · rw [if_neg he, if_neg he, lookupLoc_removeLoc,
      if_neg (fun h : l = p.location => he h.symm)]

lemma placeAll_isSome (s : List Char) :
    ∀ (pairs : List (Nat × Nat)) (b : Board),
      (∀ rf ∈ pairs, ∃ o, decodeAt s rf.1 rf.2 = some o) →
      ∃ b2, placeAll s pairs b = some b2 := by
  intro pairs
  induction pairs with
  | nil =>
    intro b _
    exact ⟨b, rfl⟩
  | cons rf rest ih =>
    intro b h
    obtain ⟨o, ho⟩ := h rf (List.mem_cons_self rf rest)
    rw [placeAll_cons, ho]
    rcases o with - | p
    · exact ih b fun rf' h' => h rf' (List.mem_cons_of_mem _ h')
    · exact ih (b.add_piece p) fun rf' h' => h rf' (List.mem_cons_of_mem _ h')

lemma placeAll_get_frame (s : List Char) :
    ∀ (pairs : List (Nat × Nat)) (b b2 : Board),
      placeAll s pairs b = some b2 →
      ∀ l : Location, (∀ rf ∈ pairs, (⟨rf.1, rf.2⟩ : Location) ≠ l) →
      b2.get_piece l = b.get_piece l := by
  intro pairs
  induction pairs with
  | nil =>
    intro b b2 h l _
    have hb : b = b2 := Option.some.inj h
    rw [← hb]
  | cons rf rest ih =>
    intro b b2 h l hl
    rw [placeAll_cons] at h
    rcases hdec : decodeAt s rf.1 rf.2 with - | op <;> rw [hdec] at h
    · exact absurd h (by simp)
    · rcases op with - | p
      · exact ih b b2 h l fun rf' h' => hl rf' (List.mem_cons_of_mem _ h')
      · rw [ih (b.add_piece p) b2 h l fun rf' h' => hl rf' (List.mem_cons_of_mem _ h'),
          get_add_piece, if_neg]
        rw [decodeAt_loc s rf.1 rf.2 p hdec]
        exact hl rf (List.mem_cons_self rf rest)

lemma placeAll_get_mem (s : List Char) :
    ∀ (pairs : List (Nat × Nat)) (b b2 : Board),
      pairs.Nodup → placeAll s pairs b = some b2 →
      ∀ r f : Nat, (r, f) ∈ pairs →
        (∀ p, decodeAt s r f = some (some p) → b2.get_piece ⟨r, f⟩ = some p) ∧
        (decodeAt s r f = some none → b2.get_piece ⟨r, f⟩ = b.get_piece ⟨r, f⟩) := by
  intro pairs
  induction pairs with
  | nil =>
    intro b b2 _ _ r f hmem
    exact absurd hmem (List.not_mem_nil _)
  | cons rf rest ih =>
    intro b b2 hnd h r f hmem
    rw [placeAll_cons] at h
    obtain ⟨hnotin, hnd'⟩ := List.nodup_cons.mp hnd
    rcases List.mem_cons.mp hmem with he | hmem'
    · subst he
      dsimp only at h
      have hrestne : ∀ rf' ∈ rest, (⟨rf'.1, rf'.2⟩ : Location) ≠ (⟨r, f⟩ : Location) := by
        intro rf' h' he2
        obtain ⟨h1, h2⟩ := Location.mk.inj he2
        have : rf' = (r, f) := Prod.ext h1 h2
        rw [this] at h'
        exact hnotin h'
      constructor
      · intro p hp
        rw [hp] at h
        rw [placeAll_get_frame s rest (Board.add_piece b p) b2 h ⟨r, f⟩ hrestne,
          get_add_piece, if_pos (decodeAt_loc s r f p hp)]
      · intro hp
        rw [hp] at h
        exact placeAll_get_frame s rest b b2 h ⟨r, f⟩ hrestne
    · have hrfne : rf ≠ (r, f) := fun he => hnotin (he ▸ hmem')
      rcases hdec : decodeAt s rf.1 rf.2 with - | op <;> rw [hdec] at h
      · exact absurd h (by simp)
      · rcases op with - | p
        · exact ih b b2 hnd' h r f hmem'
        · have hih := ih (b.add_piece p) b2 hnd' h r f hmem'
          refine ⟨hih.1, ?_⟩
          intro hp
          rw [hih.2 hp, get_add_piece, if_neg]
          rw [decodeAt_loc s rf.1 rf.2 p hdec]
          intro he2
          obtain ⟨h1, h2⟩ := Location.mk.inj he2
          exact hrfne (Prod.ext h1 h2)

lemma rfPairs_nodup : rfPairs.Nodup := by decide

lemma mem_rfPairs : ∀ r, r < 8 → ∀ f, f < 8 → (r, f) ∈ rfPairs := by decide

lemma rfPairs_bounds : ∀ rf ∈ rfPairs, rf.1 < 8 ∧ rf.2 < 8 := by decide

lemma rfPairs_getD : ∀ n, n < 64 → rfPairs.getD n (0, 0) = (7 - n / 8, n % 8) := by decide

lemma rfPairs_length : rfPairs.length = 64 := rfl

/-- `to_str` output with separators stripped is exactly the 64 squares in
reading order (rank 8 down to rank 1, file a to h). -/
lemma stripSeparators_to_str (b : Board) :
    stripSeparators b.to_str = rfPairs.map fun rf => squareChar b ⟨rf.1, rf.2⟩ := rfl

/-- C6: for every 64-glyph board string whose glyphs are all valid,
`from_repr` succeeds and `to_str` of the resulting board reproduces the
input once the inserted file-separator spaces and rank-terminating
newlines are stripped. -/
theorem from_repr_to_str_roundtrip (s : List Char)
    (hlen : s.length = 64) (hval : ∀ c ∈ s, validGlyph c) :
    ∃ b, Board.from_repr s = some b ∧ stripSeparators b.to_str = s := by
  have hvalid_some : ∀ rf ∈ rfPairs, ∃ o, decodeAt s rf.1 rf.2 = some o := by
    intro rf hrf
    obtain ⟨hr8, hf8⟩ := rfPairs_bounds rf hrf
    have hidx : 8 * (7 - rf.1) + rf.2 < s.length := by omega
    unfold decodeAt
    rw [getElem_opt_getD s _ hidx]
    have hv : validGlyph (s.getD (8 * (7 - rf.1) + rf.2) ' ') :=
      hval _ (getD_mem_of_lt s _ hidx)
    rcases validGlyph_cases _ ⟨rf.1, rf.2⟩ hv with ⟨p, hp, -, -⟩ | ⟨-, hp⟩
    · exact ⟨some p, hp⟩
    · exact ⟨none, hp⟩
  obtain ⟨b, hb⟩ := placeAll_isSome s rfPairs Board.new hvalid_some
  have hfr : Board.from_repr s = some b := by
    unfold Board.from_repr
    rw [if_pos hlen]
    exact hb
  refine ⟨b, hfr, ?_⟩
  rw [stripSeparators_to_str]
  refine List.ext_getElem ?_ ?_
  · rw [List.length_map, rfPairs_length, hlen]
  · intro n h1 h2
    have hn : n < 64 := by rw [List.length_map, rfPairs_length] at h1; exact h1
    have hn2 : n < rfPairs.length := by rw [rfPairs_length]; exact hn
    rw [List.getElem_map]
    rw [show rfPairs[n] = (7 - n / 8, n % 8) from by
      rw [← List.getD_eq_getElem rfPairs (0, 0) hn2]; exact rfPairs_getD n hn]
    have hr8 : 7 - n / 8 < 8 := by omega
    have hf8 : n % 8 < 8 := by omega
    have hlookup := placeAll_get_mem s rfPairs Board.new b rfPairs_nodup hb
      (7 - n / 8) (n % 8) (mem_rfPairs (7 - n / 8) hr8 (n % 8) hf8)
    have hidx : 8 * (7 - (7 - n / 8)) + n % 8 = n := by omega
    have hdecn : decodeAt s (7 - n / 8) (n % 8) =
        pieceFromRepr (s.getD n ' ') ⟨7 - n / 8, n % 8⟩ := by
      unfold decodeAt
      rw [hidx, getElem_opt_getD s n (by omega)]
    have hvn : validGlyph (s.getD n ' ') := hval _ (getD_mem_of_lt s n (by omega))
    rw [← List.getD_eq_getElem s ' ' h2]
    rcases validGlyph_cases (s.getD n ' ') ⟨7 - n / 8, n % 8⟩ hvn with
      ⟨p, hp, hrepr, -⟩ | ⟨hsp, hp⟩
    · have hgp : b.get_piece ⟨7 - n / 8, n % 8⟩ = some p :=
        hlookup.1 p (by rw [hdecn]; exact hp)
      unfold squareChar
      rw [hgp]
      exact hrepr
    · have hgp : b.get_piece ⟨7 - n / 8, n % 8⟩ = Board.new.get_piece ⟨7 - n / 8, n % 8⟩ :=
        hlookup.2 (by rw [hdecn]; exact hp)
      rw [hsp]
      unfold squareChar
      rw [hgp]
      rfl

/-- Witness for C6: the default layout string is 64 valid glyphs. -/
theorem from_repr_to_str_roundtrip_witness :
    (defaultRepr.length = 64 ∧ ∀ c ∈ defaultRepr, validGlyph c) ∧
    ∃ b, Board.from_repr defaultRepr = some b ∧ stripSeparators b.to_str = defaultRepr :=
  ⟨⟨by decide, by decide⟩,
    from_repr_to_str_roundtrip defaultRepr (by decide) (by decide)⟩

/-- C1: on the board built by `Board::default()` (standard start, White to
move), `possible_moves` returns exactly 20 moves: both forward steps for
each of the eight white pawns, the four knight moves, and nothing from
the bishops, rooks, queen or king (every generated move originates on
rank 2 or on one of the two knight squares b1/g1). -/
theorem default_board_twenty_moves :
    Board.from_repr defaultRepr = some Board.defaultBoard ∧
    Board.defaultBoard.possible_moves.length = 20 ∧
    (∀ f, f < 8 →
      Move.Simple ⟨1, f⟩ ⟨2, f⟩ ∈ Board.defaultBoard.possible_moves ∧
      Move.Simple ⟨1, f⟩ ⟨3, f⟩ ∈ Board.defaultBoard.possible_moves) ∧
    Move.Simple ⟨0, 1⟩ ⟨2, 0⟩ ∈ Board.defaultBoard.possible_moves ∧
    Move.Simple ⟨0, 1⟩ ⟨2, 2⟩ ∈ Board.defaultBoard.possible_moves ∧
    Move.Simple ⟨0, 6⟩ ⟨2, 5⟩ ∈ Board.defaultBoard.possible_moves ∧
    Move.Simple ⟨0, 6⟩ ⟨2, 7⟩ ∈ Board.defaultBoard.possible_moves ∧
    (∀ m ∈ Board.defaultBoard.possible_moves,
      m.src.rank = 1 ∨ m.src = ⟨0, 1⟩ ∨ m.src = ⟨0, 6⟩) := by
  decide

/-- C7: on the default board, `parse_pgn_move "Nf3"` resolves to the g1
knight (`rank 0, file 6`) moving to f3 (`rank 2, file 5`), and encoding
that move with `to_pgn` yields the string `Nf3` again. -/
theorem default_board_nf3_roundtrip :
    Board.defaultBoard.parse_pgn_move "Nf3".toList =
      .ok (.Simple ⟨0, 6⟩ ⟨2, 5⟩) ∧
    Board.defaultBoard.to_pgn (.Simple ⟨0, 6⟩ ⟨2, 5⟩) = some "Nf3".toList := by
  decide

end ChessRs
